import Mathlib

/-!
Verification of `scripts/metrics/daily_code_stats.py`.

The script is a sequential GitLab statistics tool: it classifies added diff
lines as effective or not via a fixed list of anchored regular expressions,
aggregates per-developer totals over commits, evaluates the totals against
fixed thresholds, renders reports and pushes them to notification channels.

Shallow embedding conventions used throughout this file:
* diff/report text is a `List Char`; identifiers (emails, names, paths in
  their `Option` form mirroring `dict.get`) are `String` or `List Char`;
* `re.match` over the pattern list is embedded through a tiny backtracking
  matcher (`matchPat`) over a pattern syntax `Pat`, each source regex being
  transcribed one constructor per regex atom; the Python character classes
  are modelled by their ASCII meaning;
* external HTTP results (pages, diffs, post responses) are inputs:
  a fetched page list, an `Except` value for a fallible diff fetch,
  an `HttpResult` for a notification post (a raised exception is the
  `.error`/`.exn` branch);
* Python `float` ratios are modelled as `ℚ` (all claims compare ratios far
  from representation boundaries).
-/

set_option maxHeartbeats 1000000

/-- Python `\s` (ASCII meaning): the whitespace class of the source regexes. -/
def wsChar (c : Char) : Bool :=
  c == ' ' || c == '\t' || c == '\n' || c == '\r' || c == '\x0c' || c == '\x0b'

/-- Python `\w` (ASCII meaning): word characters of the source regexes. -/
def wordChar (c : Char) : Bool :=
  (c.isAlpha || c.isDigit) || c == '_'

/-- Python `[^)]`: any character other than a closing parenthesis. -/
def notRParen (c : Char) : Bool :=
  !(c == ')')

/-- Pattern syntax covering the regex atoms used by `EXCLUDE_PATTERNS`
(line 52-66 of the source): literals, character classes, `*` over a class,
an optional single character (`;?`), sequencing, and `$`.  The leading `^`
of every source pattern is implicit: matching always starts at the head of
the input, exactly like `re.match`. -/
inductive Pat where
  | lit (w : List Char)
  | cls (p : Char → Bool)
  | star (p : Char → Bool)
  | opt (c : Char)
  | seq (a b : Pat)
  | eos

/-- All ways for `p*` to consume a (possibly empty) run of `p`-characters,
continuation-passing style.  Trying every split is equivalent to the
greedy-with-backtracking strategy of `re` as far as match success goes. -/
def matchStar (p : Char → Bool) : List Char → (List Char → Bool) → Bool
  | [], k => k []
  | c :: cs, k => k (c :: cs) || (p c && matchStar p cs k)

/-- Continuation-passing matcher for `Pat`.  `matchPat p s k` decides whether
some prefix of `s` matches `p` with the rest accepted by `k`. -/
def matchPat : Pat → List Char → (List Char → Bool) → Bool
  | .lit w, s, k => w.isPrefixOf s && k (s.drop w.length)
  | .cls p, s, k =>
    match s with
    | [] => false
    | c :: cs => p c && k cs
  | .star p, s, k => matchStar p s k
  | .opt c, s, k =>
    (match s with
     | [] => false
     | c2 :: cs => (c2 == c) && k cs) || k s
  | .seq a b, s, k => matchPat a s (fun t => matchPat b t k)
  | .eos, s, k => s.isEmpty && k s

/-- `re.match(pattern, line)` viewed as a Boolean: does some prefix of the
line match?  (`$` in the source patterns is always preceded by `\s*`, and
`\n` is a `\s` character, so modelling `$` as end-of-input agrees with
Python's end-or-before-trailing-newline semantics on every input.) -/
def reMatch (p : Pat) (s : List Char) : Bool :=
  matchPat p s (fun _ => true)

/-- `r"^\s*$"` - blank line. -/
def pBlank : Pat := .seq (.star wsChar) .eos

/-- `r"^\s*//"` - single-line comment. -/
def pLineComment : Pat := .seq (.star wsChar) (.lit ['/', '/'])

/-- `r"^\s*/\*"` - block comment opener. -/
def pBlockOpen : Pat := .seq (.star wsChar) (.lit ['/', '*'])

/-- `r"^\s*\*"` - block comment continuation. -/
def pBlockMid : Pat := .seq (.star wsChar) (.lit ['*'])

/-- `r"^\s*\*/"` - block comment closer. -/
def pBlockClose : Pat := .seq (.star wsChar) (.lit ['*', '/'])

/-- `r"^\s*import\s+"` - import statement (`\s+` = one class char then `*`). -/
def pImport : Pat :=
  .seq (.star wsChar)
    (.seq (.lit ['i', 'm', 'p', 'o', 'r', 't']) (.seq (.cls wsChar) (.star wsChar)))

/-- `r"^\s*package\s+"` - package statement. -/
def pPackage : Pat :=
  .seq (.star wsChar)
    (.seq (.lit ['p', 'a', 'c', 'k', 'a', 'g', 'e']) (.seq (.cls wsChar) (.star wsChar)))

/-- `r"^\s*@\w+\s*$"` - whole-line annotation (`\w+` = one class char then `*`). -/
def pAnn : Pat :=
  .seq (.star wsChar)
    (.seq (.lit ['@'])
      (.seq (.cls wordChar) (.seq (.star wordChar) (.seq (.star wsChar) .eos))))

/-- `r"^\s*@\w+\([^)]*\)\s*$"` - whole-line annotation with argument list. -/
def pAnnArgs : Pat :=
  .seq (.star wsChar)
    (.seq (.lit ['@'])
      (.seq (.cls wordChar)
        (.seq (.star wordChar)
          (.seq (.lit ['('])
            (.seq (.star notRParen)
              (.seq (.lit [')']) (.seq (.star wsChar) .eos)))))))

/-- `r"^\s*\}\s*$"` - lone closing brace. -/
def pCloseBrace : Pat :=
  .seq (.star wsChar) (.seq (.lit ['\x7d']) (.seq (.star wsChar) .eos))

/-- `r"^\s*\{\s*$"` - lone opening brace. -/
def pOpenBrace : Pat :=
  .seq (.star wsChar) (.seq (.lit ['\x7b']) (.seq (.star wsChar) .eos))

/-- `r"^\s*\);?\s*$"` - lone closing parenthesis, optionally `;`. -/
def pCloseParen : Pat :=
  .seq (.star wsChar) (.seq (.lit [')']) (.seq (.opt ';') (.seq (.star wsChar) .eos)))

/-- The final literal of the serial-version pattern. -/
def litSerialVersionUID : Pat :=
  .lit ['s', 'e', 'r', 'i', 'a', 'l', 'V', 'e', 'r', 's', 'i', 'o', 'n',
        'U', 'I', 'D']

/-- `long\s+serialVersionUID`. -/
def pSerialFromLong : Pat :=
  .seq (.lit ['l', 'o', 'n', 'g'])
    (.seq (.cls wsChar) (.seq (.star wsChar) litSerialVersionUID))

/-- `final\s+long\s+serialVersionUID`. -/
def pSerialFromFinal : Pat :=
  .seq (.lit ['f', 'i', 'n', 'a', 'l'])
    (.seq (.cls wsChar) (.seq (.star wsChar) pSerialFromLong))

/-- `static\s+final\s+long\s+serialVersionUID`. -/
def pSerialFromStatic : Pat :=
  .seq (.lit ['s', 't', 'a', 't', 'i', 'c'])
    (.seq (.cls wsChar) (.seq (.star wsChar) pSerialFromFinal))

/-- `r"^\s*private\s+static\s+final\s+long\s+serialVersionUID"`. -/
def pSerial : Pat :=
  .seq (.star wsChar)
    (.seq (.lit ['p', 'r', 'i', 'v', 'a', 't', 'e'])
      (.seq (.cls wsChar) (.seq (.star wsChar) pSerialFromStatic)))

/-- The ordered exclusion list of the source (lines 52-66). -/
def EXCLUDE_PATTERNS : List Pat :=
  [pBlank, pLineComment, pBlockOpen, pBlockMid, pBlockClose, pImport, pPackage,
   pAnn, pAnnArgs, pCloseBrace, pOpenBrace, pCloseParen, pSerial]

/-- Source lines 186-191: a line is effective iff no exclusion pattern
matches it (first match short-circuits, which for a Boolean result is the
same as `List.any`). -/
def is_effective_line (line : List Char) : Bool :=
  !(EXCLUDE_PATTERNS.any fun p => reMatch p line)

/-! ## Direct (spec-side) characterisations of the exclusion patterns

These are written from the specification's description of the rules -
"anchored at line start: leading whitespace, then the distinguishing
content, then (where the rule says so) only whitespace to end of line" -
as plain recursive list programs, to be proved equivalent to the regex
embedding above. -/

/-- Does the list start with a character of class `p`? -/
def headIs (p : Char → Bool) : List Char → Bool
  | [] => false
  | c :: _ => p c

/-- Whitespace-only line. -/
def specBlank (l : List Char) : Bool := l.all wsChar

/-- Leading whitespace then `//`. -/
def specLineComment (l : List Char) : Bool :=
  (['/', '/']).isPrefixOf (l.dropWhile wsChar)

/-- Leading whitespace then `/*`. -/
def specBlockOpen (l : List Char) : Bool :=
  (['/', '*']).isPrefixOf (l.dropWhile wsChar)

/-- Leading whitespace then `*`. -/
def specBlockMid (l : List Char) : Bool :=
  (['*']).isPrefixOf (l.dropWhile wsChar)

/-- Leading whitespace then `*/`. -/
def specBlockClose (l : List Char) : Bool :=
  (['*', '/']).isPrefixOf (l.dropWhile wsChar)

/-- Leading whitespace, the keyword `import`, then at least one whitespace. -/
def specImport (l : List Char) : Bool :=
  (['i', 'm', 'p', 'o', 'r', 't']).isPrefixOf (l.dropWhile wsChar) &&
    headIs wsChar ((l.dropWhile wsChar).drop 6)

/-- Leading whitespace, the keyword `package`, then at least one whitespace. -/
def specPackage (l : List Char) : Bool :=
  (['p', 'a', 'c', 'k', 'a', 'g', 'e']).isPrefixOf (l.dropWhile wsChar) &&
    headIs wsChar ((l.dropWhile wsChar).drop 7)

/-- Whole-line annotation: `@`, at least one word character, whitespace to
end of line. -/
def specAnn (l : List Char) : Bool :=
  let r := l.dropWhile wsChar
  (['@']).isPrefixOf r && headIs wordChar (r.drop 1) &&
    ((r.drop 1).dropWhile wordChar).all wsChar

/-- Whole-line annotation with a parenthesised argument list: `@`, at least
one word character, `(`, any characters other than `)`, `)`, whitespace to
end of line. -/
def specAnnArgs (l : List Char) : Bool :=
  let r := l.dropWhile wsChar
  let r2 := (r.drop 1).dropWhile wordChar
  let r3 := (r2.drop 1).dropWhile notRParen
  (['@']).isPrefixOf r && headIs wordChar (r.drop 1) &&
    ((['(']).isPrefixOf r2 && (([')']).isPrefixOf r3 && (r3.drop 1).all wsChar))

/-- A lone closing brace. -/
def specCloseBrace (l : List Char) : Bool :=
  let r := l.dropWhile wsChar
  (['\x7d']).isPrefixOf r && (r.drop 1).all wsChar

/-- A lone opening brace. -/
def specOpenBrace (l : List Char) : Bool :=
  let r := l.dropWhile wsChar
  (['\x7b']).isPrefixOf r && (r.drop 1).all wsChar

/-- A lone closing parenthesis, optionally followed by a semicolon. -/
def specCloseParen (l : List Char) : Bool :=
  let r := l.dropWhile wsChar
  ([')']).isPrefixOf r &&
    ((r.drop 1).all wsChar ||
      (([';']).isPrefixOf (r.drop 1) && ((r.drop 1).drop 1).all wsChar))

/-- Consume a keyword followed by at least one whitespace character, and
skip the whitespace run after it. -/
def chompKeyword (w : List Char) (l : List Char) : Option (List Char) :=
  if w.isPrefixOf l && headIs wsChar (l.drop w.length) then
    some ((l.drop w.length).dropWhile wsChar)
  else none

/-- The `serialVersionUID` declaration opening. -/
def specSerial (l : List Char) : Bool :=
  (((((chompKeyword ['p', 'r', 'i', 'v', 'a', 't', 'e'] (l.dropWhile wsChar)).bind
      (chompKeyword ['s', 't', 'a', 't', 'i', 'c'])).bind
      (chompKeyword ['f', 'i', 'n', 'a', 'l'])).bind
      (chompKeyword ['l', 'o', 'n', 'g'])).map
      (fun r => (['s', 'e', 'r', 'i', 'a', 'l', 'V', 'e', 'r', 's', 'i',
                  'o', 'n', 'U', 'I', 'D']).isPrefixOf r)).getD false

/-- Disjunction of the spec-side descriptions of the thirteen rules. -/
def matchesExclusion (l : List Char) : Bool :=
  specBlank l || specLineComment l || specBlockOpen l || specBlockMid l ||
    specBlockClose l || specImport l || specPackage l || specAnn l ||
    specAnnArgs l || specCloseBrace l || specOpenBrace l || specCloseParen l ||
    specSerial l

/-! ## Diff analysis (source lines 194-217) -/

/-- `str.split("\n")`: split on newline characters, keeping empty pieces
(`"".split("\n") == [""]`). -/
def splitOnNl : List Char → List (List Char)
  | [] => [[]]
  | c :: cs =>
    if c = '\n' then [] :: splitOnNl cs
    else
      match splitOnNl cs with
      | [] => [[c]]
      | l :: ls => (c :: l) :: ls

/-- `"\n".join(...)`: the inverse of `splitOnNl`. -/
def joinNl : List (List Char) → List Char
  | [] => []
  | [l] => l
  | l :: ls => l ++ '\n' :: joinNl ls

/-- A diff line that counts toward effective additions: starts with a `+`
addition marker, is not the `+++` header, and the remainder after stripping
the marker is classified effective (source lines 198-201). -/
def countedLine (line : List Char) : Bool :=
  (['+']).isPrefixOf line && !(['+', '+', '+']).isPrefixOf line &&
    is_effective_line (line.drop 1)

/-- Source lines 194-202: count the effective added lines of one file's
unified-diff body. -/
def count_effective_lines (diff_content : List Char) : Nat :=
  (splitOnNl diff_content).foldl
    (fun effective line => if countedLine line then effective + 1 else effective) 0

/-- One entry of the commit-diff response.  The source reads the entries
with `diff.get("new_path", "")` and `diff.get("diff", "")`, so both keys may
be absent. -/
structure FileDiff where
  new_path : Option (List Char) := none
  diff : Option (List Char) := none
deriving DecidableEq

/-- `path.endswith(".java")`. -/
def isJavaPath (d : FileDiff) : Bool :=
  ([ '.', 'j', 'a', 'v', 'a']).isSuffixOf (d.new_path.getD [])

/-- Source lines 205-217: analyse one commit's diff, only counting files
whose new path ends in `.java`.  The `try`/`except` around the GitLab diff
fetch is embedded by taking the fetch result as an `Except` value: the
`.error` branch is the caught exception, giving 0 effective lines. -/
def analyze_commit_diff : Except String (List FileDiff) → Nat
  | .error _ => 0
  | .ok diffs =>
    diffs.foldl
      (fun effective d =>
        if isJavaPath d then effective + count_effective_lines (d.diff.getD [])
        else effective) 0

/-- Spec-side description of the same computation (claim C3): restrict to
the `.java` entries, count the `+`-marker lines whose remainder is
effective, and sum over the files. -/
def effectiveAdditionsSpec (diffs : List FileDiff) : Nat :=
  ((diffs.filter isJavaPath).map
    (fun d => (splitOnNl (d.diff.getD [])).countP countedLine)).sum

/-- Any addition line of a diff body (effective or not); the raw additions
reported by the GitLab statistics count exactly these lines. -/
def isAddLine (line : List Char) : Bool :=
  (['+']).isPrefixOf line && !(['+', '+', '+']).isPrefixOf line

/-- Number of addition lines over all files of a commit diff. -/
def addedLineCount (diffs : List FileDiff) : Nat :=
  (diffs.map (fun d => (splitOnNl (d.diff.getD [])).countP isAddLine)).sum

/-! ## Data model and collection (source lines 73-121 and 224-281) -/

/-- Source lines 73-81 (`CommitStats` dataclass). -/
structure CommitStats where
  sha : String
  message : String
  additions : Nat := 0
  deletions : Nat := 0
  effective_additions : Nat := 0
  files_changed : Nat := 0
deriving DecidableEq

/-- Source lines 84-94 (`DeveloperStats` dataclass).  The Python `set` of
project names is a `Finset String`. -/
structure DeveloperStats where
  name : String
  email : String
  commits : List CommitStats := []
  total_additions : Nat := 0
  total_deletions : Nat := 0
  effective_additions : Nat := 0
  files_changed : Nat := 0
  projects : Finset String := ∅
deriving DecidableEq

/-- Source lines 96-98: `commit_count` property. -/
def commit_count (d : DeveloperStats) : Nat :=
  d.commits.length

/-- Source lines 100-104: `effective_ratio` property; the Python float
division is modelled exactly over `ℚ`. -/
def effective_ratio (d : DeveloperStats) : ℚ :=
  if d.total_additions = 0 then 0
  else (d.effective_additions : ℚ) / (d.total_additions : ℚ)

/-- Source lines 45-49 (`SENIOR_ENGINEER_STANDARDS`); `0.6` is the exact
rational three fifths. -/
structure Standards where
  min_effective_lines : Nat
  min_commits : Nat
  min_ratio : ℚ

def SENIOR_ENGINEER_STANDARDS : Standards :=
  { min_effective_lines := 80, min_commits := 2, min_ratio := 3 / 5 }

/-- The three deficiency messages of `meets_standard`, abstracting the
formatted Chinese strings (whose text embeds the actual and required
values) by which check produced them. -/
inductive Issue where
  | lowEffectiveLines
  | lowCommitCount
  | lowRatio
deriving DecidableEq

/-- Source lines 106-121: `meets_standard` property.  Issues are appended
in source order; the pass flag is `len(issues) == 0`. -/
def meets_standard (d : DeveloperStats) : Bool × List Issue :=
  let standards := SENIOR_ENGINEER_STANDARDS
  let issues :=
    (if d.effective_additions < standards.min_effective_lines then
       [Issue.lowEffectiveLines] else []) ++
    (if commit_count d < standards.min_commits then
       [Issue.lowCommitCount] else []) ++
    (if effective_ratio d < standards.min_ratio ∧ d.total_additions > 50 then
       [Issue.lowRatio] else [])
  (issues.length == 0, issues)

/-- One commit as consumed by `collect_stats`: the fields read from the
GitLab commit listing (`commit.get(...)`, hence `Option`) together with the
result of the diff fetch `client.get_commit_diff(project_id, commit["id"])`
for that commit (`.error` = the call raised). -/
structure Commit where
  id : String
  title : Option String := none
  author_email : Option String := none
  author_name : Option String := none
  stats_additions : Option Nat := none
  stats_deletions : Option Nat := none
  diff : Except String (List FileDiff) := .ok []

/-- One project as consumed by `collect_stats`: its name and the commits
returned for the day's window by `get_project_commits`. -/
structure Project where
  id : Nat := 0
  name : String
  commits : List Commit := []

/-- The `developers` dict keyed by author email; Python dicts keep
insertion order, so an association list appended at the tail. -/
def lookupDev (devs : List (String × DeveloperStats)) (email : String) :
    Option DeveloperStats :=
  (devs.find? (fun p => p.1 == email)).map (fun p => p.2)

/-- `developers[author_email] = DeveloperStats(name=..., email=...)`. -/
def initDev (name email : String) : DeveloperStats :=
  { name := name, email := email }

/-- Update the aggregate stored under `email` in place. -/
def updateDev (devs : List (String × DeveloperStats)) (email : String)
    (f : DeveloperStats → DeveloperStats) : List (String × DeveloperStats) :=
  devs.map (fun p => if p.1 == email then (p.1, f p.2) else p)

/-- Source lines 258-279, the per-commit mutation of the aggregate:
record the project name, build the `CommitStats` record, append it, and
update the running totals. -/
def applyCommit (project_name : String) (c : Commit) (d : DeveloperStats) :
    DeveloperStats :=
  let additions := c.stats_additions.getD 0
  let deletions := c.stats_deletions.getD 0
  let effective := analyze_commit_diff c.diff
  let commit_stats : CommitStats :=
    { sha := c.id.take 8, message := (c.title.getD "").take 50,
      additions := additions, deletions := deletions,
      effective_additions := effective }
  { d with
      projects := insert project_name d.projects,
      commits := d.commits ++ [commit_stats],
      total_additions := d.total_additions + additions,
      total_deletions := d.total_deletions + deletions,
      effective_additions := d.effective_additions + effective }

/-- Source lines 246-279, one loop iteration over a commit: resolve or
create the developer aggregate keyed by author email (with the
`"unknown"`/`"Unknown"` fallbacks of `commit.get`), then mutate it. -/
def processCommit (project_name : String)
    (devs : List (String × DeveloperStats)) (c : Commit) :
    List (String × DeveloperStats) :=
  let author_email := c.author_email.getD "unknown"
  let author_name := c.author_name.getD "Unknown"
  let devs :=
    if (lookupDev devs author_email).isNone then
      devs ++ [(author_email, initDev author_name author_email)]
    else devs
  updateDev devs author_email (applyCommit project_name c)

/-- The inner loop of `collect_stats` over one project's commits. -/
def processProject (devs : List (String × DeveloperStats)) (p : Project) :
    List (String × DeveloperStats) :=
  p.commits.foldl (processCommit p.name) devs

/-- Source lines 224-281: `collect_stats`, with the fetched projects (each
holding its fetched commits and their diff-fetch results) as input; the
time-window construction and the HTTP calls are external I/O. -/
def collect_stats (projects : List Project) : List (String × DeveloperStats) :=
  projects.foldl processProject []

/-- Bound linking a commit's reported statistics to its retrieved diff:
the raw additions are at least the number of addition lines of the diff
(which is what the GitLab API guarantees).  `True` when the diff fetch
failed. -/
def addBound (c : Commit) : Bool :=
  match c.diff with
  | .ok ds => addedLineCount ds ≤ c.stats_additions.getD 0
  | .error _ => true

/-- All commits of all projects, in processing order. -/
def flatCommits (projects : List Project) : List Commit :=
  (projects.map (fun p => p.commits)).flatten

/-- The author name carried by the first commit (in processing order)
whose author email resolves to `email`. -/
def firstAuthorName (cs : List Commit) (email : String) : Option String :=
  (cs.find? (fun c => c.author_email.getD "unknown" == email)).map
    (fun c => c.author_name.getD "Unknown")

/-! ## Pagination (source lines 142-159) -/

/-- `per_page` as set by `_get_all`. -/
def PER_PAGE : Nat := 100

/-- Source lines 142-159, `GitLabClient._get_all`.  The endpoint is
modelled as the finite sequence of its non-empty pages in order (a request
past the end returns the empty page).  The loop requests page 1, 2, ... and
stops on an empty page or on a page shorter than `per_page = 100`; the
second component counts the page requests issued. -/
def getAll {α : Type} : List (List α) → List α × Nat
  | [] => ([], 1)
  | d :: rest =>
    if d.isEmpty then ([], 1)
    else if d.length < PER_PAGE then (d, 1)
    else
      let r := getAll rest
      (d ++ r.1, r.2 + 1)

/-! ## Telegram message splitting (source lines 421-457) -/

/-- The hard cap `max_len = 4000` of `send_telegram`. -/
def TELEGRAM_MAX_LEN : Nat := 4000

/-- One iteration of the line-accumulation loop of `send_telegram`
(source lines 437-442): state is `(parts, current)`. -/
def tgStep (st : List (List Char) × List Char) (line : List Char) :
    List (List Char) × List Char :=
  if st.2.length + line.length + 1 > TELEGRAM_MAX_LEN then (st.1 ++ [st.2], line)
  else if st.2.isEmpty then (st.1, line)
  else (st.1, st.2 ++ '\n' :: line)

/-- Source lines 427-444: split the message content into parts.  Content
within the cap is sent as a single part; otherwise the content is split on
line boundaries and lines are accumulated greedily, a trailing non-empty
accumulator becoming the last part. -/
def telegramParts (content : List Char) : List (List Char) :=
  if content.length ≤ TELEGRAM_MAX_LEN then [content]
  else if ((splitOnNl content).foldl tgStep ([], [])).2.isEmpty then
    ((splitOnNl content).foldl tgStep ([], [])).1
  else
    ((splitOnNl content).foldl tgStep ([], [])).1 ++
      [((splitOnNl content).foldl tgStep ([], [])).2]

/-- Invariant of the accumulation loop of `send_telegram`: the parts
already emitted together with the in-progress accumulator are the
newline-joins of a partition of the processed lines into consecutive
non-empty blocks, every emitted part and the accumulator fit the cap, and
(once anything was processed) the accumulator is non-empty.  Holds while
all processed lines are non-empty and shorter than the cap. -/
def TgInv (processed : List (List Char))
    (st : List (List Char) × List Char) : Prop :=
  ∃ (blocks : List (List (List Char))) (cur : List (List Char)),
    st.1 = blocks.map joinNl ∧
    blocks.flatten ++ cur = processed ∧
    (∀ b ∈ blocks, b ≠ [] ∧ (joinNl b).length ≤ TELEGRAM_MAX_LEN) ∧
    st.2 = joinNl cur ∧
    st.2.length ≤ TELEGRAM_MAX_LEN ∧
    (∀ x ∈ cur, x ≠ []) ∧
    (processed ≠ [] → cur ≠ [])

/-! ## Notification dispatch (source lines 398-457 and 505-526)

The result of one `requests.post` is an input: either an HTTP response
(status code and body text) or a raised transport exception. -/

inductive HttpResult where
  | response (status : Nat) (body : String)
  | exn (msg : String)

/-- Source lines 398-405, `send_wecom`: posts and prints the status code.
A raised exception is the `.error` branch (nothing is caught locally);
otherwise the returned list holds the lines printed. -/
def send_wecom (res : HttpResult) : Except String (List String) :=
  match res with
  | .response code _ => .ok ["企业微信发送结果: " ++ toString code]
  | .exn msg => .error msg

/-- Source lines 408-418, `send_dingtalk`: same shape as `send_wecom`. -/
def send_dingtalk (res : HttpResult) : Except String (List String) :=
  match res with
  | .response code _ => .ok ["钉钉发送结果: " ++ toString code]
  | .exn msg => .error msg

/-- The log line `send_telegram` prints for part `i` (0-based) of `total`
given the response to its post (source lines 454-457). -/
def tgLog (total i : Nat) (code : Nat) (body : String) : String :=
  if code == 200 then
    "Telegram 发送成功 (" ++ toString (i + 1) ++ "/" ++ toString total ++ ")"
  else
    "Telegram 发送失败: " ++ toString code ++ " - " ++ body

/-- Source lines 446-457, the posting loop of `send_telegram`: one post per
part in order; a non-200 response is only printed, a raised exception
aborts the loop (and propagates).  `oc i` is the result of the post for
part `i`. -/
def sendTelegramLoop (oc : Nat → HttpResult) (total : Nat) :
    List (List Char) → Nat → Except String (List String)
  | [], _ => .ok []
  | _ :: rest, i =>
    match oc i with
    | .response code body =>
      (sendTelegramLoop oc total rest (i + 1)).map
        (fun logs => tgLog total i code body :: logs)
    | .exn msg => .error msg

/-- Source lines 421-457, `send_telegram`: split the content, then post
each part. -/
def send_telegram (oc : Nat → HttpResult) (content : List Char) :
    Except String (List String) :=
  let parts := telegramParts content
  sendTelegramLoop oc parts.length parts 0

/-- The notification configuration read from the environment in `main`
(source lines 506-517); each channel is independently optional. -/
structure NotifyConfig where
  wecom_webhook : Option String := none
  dingtalk_webhook : Option String := none
  telegram_token : Option String := none
  telegram_chat_id : Option String := none

/-- Source lines 505-518, the notification tail of `main`: each configured
channel is invoked in order inside `main`'s single `try` block, so the
first raised exception aborts the remaining sends. -/
def notifyPhase (cfg : NotifyConfig) (wres dres : HttpResult)
    (tres : Nat → HttpResult) (md_report : List Char) :
    Except String (List String) := do
  let wlogs ←
    match cfg.wecom_webhook with
    | some _ => send_wecom wres
    | none => .ok []
  let dlogs ←
    match cfg.dingtalk_webhook with
    | some _ => send_dingtalk dres
    | none => .ok []
  let tlogs ←
    match cfg.telegram_token, cfg.telegram_chat_id with
    | some _, some _ => send_telegram tres md_report
    | _, _ => .ok []
  .ok (wlogs ++ dlogs ++ tlogs)

/-- Source lines 483-526: the exit code of `main` as determined by the
notification phase — `return 0` at line 520 if nothing raised, otherwise
the `except Exception` handler returns 1 (line 526). -/
def mainExitCode (cfg : NotifyConfig) (wres dres : HttpResult)
    (tres : Nat → HttpResult) (md_report : List Char) : Nat :=
  match notifyPhase cfg wres dres tres md_report with
  | .ok _ => 0
  | .error _ => 1

/-- Expected per-part Telegram logs when every post gets an HTTP response
(`toc i` = status and body of the response for part `i`). -/
def tgLogsExpected (toc : Nat → Nat × String) (total : Nat) :
    List (List Char) → Nat → List String
  | [], _ => []
  | _ :: rest, i =>
    tgLog total i (toc i).1 (toc i).2 :: tgLogsExpected toc total rest (i + 1)

/-! ## Concrete inputs used by counterexamples and witnesses -/

/-- A commit whose API statistics (0 additions) disagree with its retrieved
diff (one effective added Java line). -/
def cInconsistent : Commit :=
  { id := "deadbeefcafebabe", title := some "t",
    author_email := some "dev@example.com", author_name := some "Dev",
    stats_additions := some 0, stats_deletions := some 0,
    diff := .ok [{ new_path := some ("A.java".toList),
                   diff := some ("+int x = 1;".toList) }] }

def projectsInconsistent : List Project :=
  [{ name := "proj", commits := [cInconsistent] }]

/-- A commit whose API statistics (5 additions) bound its diff's added
lines (one added Java line). -/
def cConsistent : Commit :=
  { id := "deadbeefcafebabe", title := some "t",
    author_email := some "dev@example.com", author_name := some "Dev",
    stats_additions := some 5, stats_deletions := some 0,
    diff := .ok [{ new_path := some ("A.java".toList),
                   diff := some ("+int x = 1;".toList) }] }

def projectsConsistent : List Project :=
  [{ name := "proj", commits := [cConsistent] }]

/-- A diff response with no `.java` file. -/
def diffsNoJava : List FileDiff :=
  [{ new_path := some ("README.md".toList), diff := some ("+hello".toList) }]

/-- A commit whose diff fetch raised. -/
def cDiffError : Commit :=
  { id := "cafebabe", author_email := some "x@y.z", diff := .error "boom" }

/-- Two commits by the same email carrying different display names. -/
def cFirstName : Commit :=
  { id := "a1", author_email := some "a@x.y", author_name := some "Alice",
    diff := .ok [] }

def cSecondName : Commit :=
  { id := "b2", author_email := some "a@x.y", author_name := some "Bob",
    diff := .ok [] }

def projectsTwoNames : List Project :=
  [{ name := "proj", commits := [cFirstName, cSecondName] }]

/-- An aggregate with zero raw additions. -/
def devZeroAdditions : DeveloperStats :=
  { name := "Z", email := "z@x.y" }

/-- A dummy commit record for populating commit lists. -/
def csDummy : CommitStats := { sha := "sha", message := "msg" }

/-- Aggregate of claim C4: effective 80, 2 commits, total 100making ratio 0.8. -/
def devPassing : DeveloperStats :=
  { name := "A", email := "a@x.y", commits := [csDummy, csDummy],
    total_additions := 100, total_deletions := 0, effective_additions := 80 }

/-- Aggregate of claim C4: effective 50, 1 commit, total 200, ratio 0.25. -/
def devFailing : DeveloperStats :=
  { name := "B", email := "b@x.y", commits := [csDummy],
    total_additions := 200, total_deletions := 0, effective_additions := 50 }

/-- Notification configuration with all three channels enabled. -/
def cfgAllChannels : NotifyConfig :=
  { wecom_webhook := some "https://wecom.example/hook",
    dingtalk_webhook := some "https://dingtalk.example/hook",
    telegram_token := some "token", telegram_chat_id := some "chat" }

def reportSmall : List Char := "# report".toList

/-- Message content of 4002 characters whose first line is empty: lines are
`""`, 2000 `a`s, 2000 `a`s, each shorter than the 4000 cap. -/
def contentEmptyLine : List Char :=
  '\n' :: (List.replicate 2000 'a' ++ '\n' :: List.replicate 2000 'a')

/-- Message content of 4502 characters: three non-empty lines of 1500 `a`s. -/
def contentThreeLines : List Char :=
  List.replicate 1500 'a' ++
    '\n' :: (List.replicate 1500 'a' ++ '\n' :: List.replicate 1500 'a')

/-! # Theorems

## Matcher lemmas: the regex embedding versus the direct descriptions -/

/-- A star never fails when its continuation accepts everything. -/
theorem matchStar_const_true (p : Char → Bool) (s : List Char) :
    matchStar p s (fun _ => true) = true := by
  cases s <;> simp [matchStar]

/-- Greedy determinacy: when the continuation can only succeed on input
whose head is outside the starred class, `p*` behaves like `dropWhile p`. -/
theorem matchStar_eq (p : Char → Bool) (k : List Char → Bool)
    (hk : ∀ c cs, k (c :: cs) = true → p c = false) :
    ∀ s, matchStar p s k = k (s.dropWhile p) := by
  intro s
  induction s with
  | nil => rfl
  | cons c cs ih =>
    cases hpc : p c with
    | true =>
      have hkc : k (c :: cs) = false := by
        cases hkc2 : k (c :: cs) with
        | true => exact absurd (hk c cs hkc2) (by simp [hpc])
        | false => rfl
      simp [matchStar, List.dropWhile_cons, hpc, hkc, ih]
    | false => simp [matchStar, List.dropWhile_cons, hpc]

/-- `dropWhile` exhausts the list exactly on all-`p` lists. -/
theorem isEmpty_dropWhile (p : Char → Bool) (l : List Char) :
    (l.dropWhile p).isEmpty = l.all p := by
  induction l with
  | nil => rfl
  | cons c cs ih =>
    cases hpc : p c <;> simp [List.dropWhile_cons, hpc, ih]

/-- No whitespace character is a word character. -/
theorem wsChar_not_wordChar {c : Char} (h : wsChar c = true) :
    wordChar c = false := by
  simp only [wsChar, Bool.or_eq_true, beq_iff_eq] at h
  rcases h with ((((h | h) | h) | h) | h) | h <;> subst h <;> decide

/-- Unfolding equation: sequencing is continuation composition. -/
theorem matchPat_seq (a b : Pat) (s : List Char) (k : List Char → Bool) :
    matchPat (.seq a b) s k = matchPat a s (fun t => matchPat b t k) := rfl

/-- Unfolding equation: a star runs `matchStar`. -/
theorem matchPat_star (p : Char → Bool) (s : List Char) (k : List Char → Bool) :
    matchPat (.star p) s k = matchStar p s k := rfl

/-- `r"^\s*$"` matches exactly the whitespace-only lines. -/
theorem reMatch_pBlank (s : List Char) : reMatch pBlank s = specBlank s := by
  show matchStar wsChar s (fun t => matchPat .eos t (fun _ => true)) = _
  rw [matchStar_eq wsChar _ (by intro c cs h; simp [matchPat] at h) s]
  simp [matchPat, specBlank, isEmpty_dropWhile]

/-- `r"^\s*//"`. -/
theorem reMatch_pLineComment (s : List Char) :
    reMatch pLineComment s = specLineComment s := by
  show matchStar wsChar s
      (fun t => matchPat (.lit ['/', '/']) t (fun _ => true)) = _
  rw [matchStar_eq wsChar _ ?hk s]
  case hk =>
    intro c cs h
    simp only [matchPat, Bool.and_eq_true, List.isPrefixOf, beq_iff_eq] at h
    rcases h with ⟨⟨h1, -⟩, -⟩
    subst h1; decide
  simp [matchPat, specLineComment]

/-- `r"^\s*/\*"`. -/
theorem reMatch_pBlockOpen (s : List Char) :
    reMatch pBlockOpen s = specBlockOpen s := by
  show matchStar wsChar s
      (fun t => matchPat (.lit ['/', '*']) t (fun _ => true)) = _
  rw [matchStar_eq wsChar _ ?hk s]
  case hk =>
    intro c cs h
    simp only [matchPat, Bool.and_eq_true, List.isPrefixOf, beq_iff_eq] at h
    rcases h with ⟨⟨h1, -⟩, -⟩
    subst h1; decide
  simp [matchPat, specBlockOpen]

/-- `r"^\s*\*"`. -/
theorem reMatch_pBlockMid (s : List Char) :
    reMatch pBlockMid s = specBlockMid s := by
  show matchStar wsChar s
      (fun t => matchPat (.lit ['*']) t (fun _ => true)) = _
  rw [matchStar_eq wsChar _ ?hk s]
  case hk =>
    intro c cs h
    simp only [matchPat, Bool.and_eq_true, List.isPrefixOf, beq_iff_eq] at h
    rcases h with ⟨⟨h1, -⟩, -⟩
    subst h1; decide
  simp [matchPat, specBlockMid]

/-- `r"^\s*\*/"`. -/
theorem reMatch_pBlockClose (s : List Char) :
    reMatch pBlockClose s = specBlockClose s := by
  show matchStar wsChar s
      (fun t => matchPat (.lit ['*', '/']) t (fun _ => true)) = _
  rw [matchStar_eq wsChar _ ?hk s]
  case hk =>
    intro c cs h
    simp only [matchPat, Bool.and_eq_true, List.isPrefixOf, beq_iff_eq] at h
    rcases h with ⟨⟨h1, -⟩, -⟩
    subst h1; decide
  simp [matchPat, specBlockClose]

/-- `r"^\s*import\s+"`. -/
theorem reMatch_pImport (s : List Char) : reMatch pImport s = specImport s := by
  show matchStar wsChar s
      (fun t => matchPat (.seq (.lit ['i', 'm', 'p', 'o', 'r', 't'])
        (.seq (.cls wsChar) (.star wsChar))) t (fun _ => true)) = _
  rw [matchStar_eq wsChar _ ?hk s]
  case hk =>
    intro c cs h
    simp only [matchPat, Bool.and_eq_true, List.isPrefixOf, beq_iff_eq] at h
    rcases h with ⟨⟨h1, -⟩, -⟩
    subst h1; decide
  simp only [matchPat, specImport]
  rcases h6 : (s.dropWhile wsChar).drop 6 with _ | ⟨c, cs⟩ <;>
    simp [h6, headIs, matchStar_const_true]

/-- `r"^\s*package\s+"`. -/
theorem reMatch_pPackage (s : List Char) :
    reMatch pPackage s = specPackage s := by
  show matchStar wsChar s
      (fun t => matchPat (.seq (.lit ['p', 'a', 'c', 'k', 'a', 'g', 'e'])
        (.seq (.cls wsChar) (.star wsChar))) t (fun _ => true)) = _
  rw [matchStar_eq wsChar _ ?hk s]
  case hk =>
    intro c cs h
    simp only [matchPat, Bool.and_eq_true, List.isPrefixOf, beq_iff_eq] at h
    rcases h with ⟨⟨h1, -⟩, -⟩
    subst h1; decide
  simp only [matchPat, specPackage]
  rcases h7 : (s.dropWhile wsChar).drop 7 with _ | ⟨c, cs⟩ <;>
    simp [h7, headIs, matchStar_const_true]

/-- `\s*$` at the end of a pattern accepts exactly all-whitespace rests. -/
theorem matchStar_ws_isEmpty (u : List Char) :
    matchStar wsChar u (fun z => z.isEmpty) = u.all wsChar := by
  rw [matchStar_eq wsChar _ (by intro c cs h; simp at h) u]
  simp [isEmpty_dropWhile]

/-- `\w*` before an all-whitespace requirement. -/
theorem matchStar_word_allWs (v : List Char) :
    matchStar wordChar v (fun u => u.all wsChar) =
      (v.dropWhile wordChar).all wsChar := by
  rw [matchStar_eq wordChar _ ?hw v]
  case hw =>
    intro c cs h
    simp only [List.all_cons, Bool.and_eq_true] at h
    exact wsChar_not_wordChar h.1

/-- `r"^\s*@\w+\s*$"`. -/
theorem reMatch_pAnn (s : List Char) : reMatch pAnn s = specAnn s := by
  show matchStar wsChar s
      (fun t => matchPat (.seq (.lit ['@']) (.seq (.cls wordChar)
        (.seq (.star wordChar) (.seq (.star wsChar) .eos)))) t
        (fun _ => true)) = _
  rw [matchStar_eq wsChar _ ?hk s]
  case hk =>
    intro c cs h
    simp only [matchPat, Bool.and_eq_true, List.isPrefixOf, beq_iff_eq] at h
    rcases h with ⟨⟨h1, -⟩, -⟩
    subst h1; decide
  simp only [matchPat, specAnn]
  rcases h1 : (s.dropWhile wsChar).drop 1 with _ | ⟨c, cs⟩
  · simp [h1, headIs]
  · cases hw : wordChar c <;>
      simp [h1, headIs, hw, matchStar_ws_isEmpty, matchStar_word_allWs,
        List.dropWhile_cons]

/-- `[^)]*` before the closing-parenthesis requirement. -/
theorem matchStar_notR_close (v : List Char) :
    matchStar notRParen v
      (fun t => ([')']).isPrefixOf t && t.tail.all wsChar) =
    (([')']).isPrefixOf (v.dropWhile notRParen) &&
      (v.dropWhile notRParen).tail.all wsChar) := by
  rw [matchStar_eq notRParen _ ?hp v]
  case hp =>
    intro c cs h
    simp only [Bool.and_eq_true, List.isPrefixOf, beq_iff_eq] at h
    rcases h with ⟨⟨h1, -⟩, -⟩
    subst h1; decide

/-- `\w*` before the argument-list requirement. -/
theorem matchStar_word_parens (v : List Char) :
    matchStar wordChar v
      (fun t => (['(']).isPrefixOf t &&
        (([')']).isPrefixOf (t.tail.dropWhile notRParen) &&
          (t.tail.dropWhile notRParen).tail.all wsChar)) =
    ((['(']).isPrefixOf (v.dropWhile wordChar) &&
      (([')']).isPrefixOf ((v.dropWhile wordChar).tail.dropWhile notRParen) &&
        ((v.dropWhile wordChar).tail.dropWhile notRParen).tail.all wsChar)) := by
  rw [matchStar_eq wordChar _ ?hq v]
  case hq =>
    intro c cs h
    simp only [Bool.and_eq_true, List.isPrefixOf, beq_iff_eq] at h
    rcases h with ⟨⟨h1, -⟩, -⟩
    subst h1; decide

/-- `r"^\s*@\w+\([^)]*\)\s*$"`. -/
theorem reMatch_pAnnArgs (s : List Char) :
    reMatch pAnnArgs s = specAnnArgs s := by
  show matchStar wsChar s
      (fun t => matchPat (.seq (.lit ['@']) (.seq (.cls wordChar)
        (.seq (.star wordChar) (.seq (.lit ['(']) (.seq (.star notRParen)
          (.seq (.lit [')']) (.seq (.star wsChar) .eos))))))) t
        (fun _ => true)) = _
  rw [matchStar_eq wsChar _ ?hk s]
  case hk =>
    intro c cs h
    simp only [matchPat, Bool.and_eq_true, List.isPrefixOf, beq_iff_eq] at h
    rcases h with ⟨⟨h1, -⟩, -⟩
    subst h1; decide
  simp only [matchPat, specAnnArgs]
  rcases h1 : (s.dropWhile wsChar).drop 1 with _ | ⟨c, cs⟩
  · simp [h1, headIs]
  · cases hw : wordChar c <;>
      simp [h1, headIs, hw, matchStar_ws_isEmpty, matchStar_notR_close,
        matchStar_word_parens, List.dropWhile_cons]

/-- `r"^\s*\}\s*$"`. -/
theorem reMatch_pCloseBrace (s : List Char) :
    reMatch pCloseBrace s = specCloseBrace s := by
  show matchStar wsChar s
      (fun t => matchPat (.seq (.lit ['\x7d']) (.seq (.star wsChar) .eos)) t
        (fun _ => true)) = _
  rw [matchStar_eq wsChar _ ?hk s]
  case hk =>
    intro c cs h
    simp only [matchPat, Bool.and_eq_true, List.isPrefixOf, beq_iff_eq] at h
    rcases h with ⟨⟨h1, -⟩, -⟩
    subst h1; decide
  simp [matchPat, specCloseBrace, matchStar_ws_isEmpty]

/-- `r"^\s*\{\s*$"`. -/
theorem reMatch_pOpenBrace (s : List Char) :
    reMatch pOpenBrace s = specOpenBrace s := by
  show matchStar wsChar s
      (fun t => matchPat (.seq (.lit ['\x7b']) (.seq (.star wsChar) .eos)) t
        (fun _ => true)) = _
  rw [matchStar_eq wsChar _ ?hk s]
  case hk =>
    intro c cs h
    simp only [matchPat, Bool.and_eq_true, List.isPrefixOf, beq_iff_eq] at h
    rcases h with ⟨⟨h1, -⟩, -⟩
    subst h1; decide
  simp [matchPat, specOpenBrace, matchStar_ws_isEmpty]

/-- `r"^\s*\);?\s*$"`. -/
theorem reMatch_pCloseParen (s : List Char) :
    reMatch pCloseParen s = specCloseParen s := by
  show matchStar wsChar s
      (fun t => matchPat (.seq (.lit [')']) (.seq (.opt ';')
        (.seq (.star wsChar) .eos))) t (fun _ => true)) = _
  rw [matchStar_eq wsChar _ ?hk s]
  case hk =>
    intro c cs h
    simp only [matchPat, Bool.and_eq_true, List.isPrefixOf, beq_iff_eq] at h
    rcases h with ⟨⟨h1, -⟩, -⟩
    subst h1; decide
  simp only [matchPat, specCloseParen]
  rcases h1 : (s.dropWhile wsChar).drop 1 with _ | ⟨c, cs⟩
  · simp [h1, matchStar, matchStar_ws_isEmpty]
  · by_cases hcp : c = ';'
    · subst hcp
      simp [h1, matchStar_ws_isEmpty, List.all_cons,
        show wsChar ';' = false from by decide]
    · have hc1 : (c == ';') = false := by
        simp only [beq_eq_false_iff_ne, ne_eq]; exact hcp
      have hc2 : ((';' : Char) == c) = false := by
        simp only [beq_eq_false_iff_ne, ne_eq]
        exact fun h => hcp h.symm
      simp [h1, hc1, hc2, matchStar_ws_isEmpty, List.all_cons,
        List.isPrefixOf]

/-- One `keyword\s+` stage of the serial-version pattern. -/
theorem matchPat_keyword_stage (w : List Char) (rest : Pat) (l : List Char)
    (hrest : ∀ c cs, matchPat rest (c :: cs) (fun _ => true) = true →
      wsChar c = false) :
    matchPat (.seq (.lit w) (.seq (.cls wsChar) (.seq (.star wsChar) rest))) l
      (fun _ => true) =
    ((chompKeyword w l).map
      (fun r => matchPat rest r (fun _ => true))).getD false := by
  simp only [matchPat, chompKeyword]
  rcases hd : l.drop w.length with _ | ⟨c, cs⟩
  · simp [hd, headIs]
  · cases hws : wsChar c
    · simp [hd, headIs, hws]
    · cases hpre : w.isPrefixOf l
      · simp [hpre]
      · simp only [hpre, hd, headIs, hws, Bool.true_and, if_pos, and_self,
          Bool.and_self, List.dropWhile_cons]
        rw [matchStar_eq wsChar _ hrest cs]
        simp [hws]

/-- `r"^\s*private\s+static\s+final\s+long\s+serialVersionUID"`. -/
theorem reMatch_pSerial (s : List Char) : reMatch pSerial s = specSerial s := by
  have hlast : ∀ c cs,
      matchPat litSerialVersionUID (c :: cs) (fun _ => true) = true →
      wsChar c = false := by
    intro c cs h
    simp only [litSerialVersionUID, matchPat, Bool.and_eq_true,
      List.isPrefixOf, beq_iff_eq] at h
    rcases h with ⟨⟨h1, -⟩, -⟩
    subst h1; decide
  have hlong : ∀ c cs,
      matchPat pSerialFromLong (c :: cs) (fun _ => true) = true →
      wsChar c = false := by
    intro c cs h
    simp only [pSerialFromLong, matchPat, Bool.and_eq_true, List.isPrefixOf,
      beq_iff_eq] at h
    rcases h with ⟨⟨h1, -⟩, -⟩
    subst h1; decide
  have hfinal : ∀ c cs,
      matchPat pSerialFromFinal (c :: cs) (fun _ => true) = true →
      wsChar c = false := by
    intro c cs h
    simp only [pSerialFromFinal, matchPat, Bool.and_eq_true, List.isPrefixOf,
      beq_iff_eq] at h
    rcases h with ⟨⟨h1, -⟩, -⟩
    subst h1; decide
  have hstatic : ∀ c cs,
      matchPat pSerialFromStatic (c :: cs) (fun _ => true) = true →
      wsChar c = false := by
    intro c cs h
    simp only [pSerialFromStatic, matchPat, Bool.and_eq_true, List.isPrefixOf,
      beq_iff_eq] at h
    rcases h with ⟨⟨h1, -⟩, -⟩
    subst h1; decide
  show matchStar wsChar s
      (fun t => matchPat (.seq (.lit ['p', 'r', 'i', 'v', 'a', 't', 'e'])
        (.seq (.cls wsChar) (.seq (.star wsChar) pSerialFromStatic))) t
        (fun _ => true)) = _
  rw [matchStar_eq wsChar _ ?hk s]
  case hk =>
    intro c cs h
    simp only [matchPat, Bool.and_eq_true, List.isPrefixOf, beq_iff_eq] at h
    rcases h with ⟨⟨h1, -⟩, -⟩
    subst h1; decide
  rw [matchPat_keyword_stage _ _ _ hstatic]
  unfold specSerial
  rcases hc1 : chompKeyword ['p', 'r', 'i', 'v', 'a', 't', 'e']
      (s.dropWhile wsChar) with _ | r1
  · simp [hc1]
  · simp only [hc1, Option.map_some', Option.getD_some, Option.some_bind]
    rw [show pSerialFromStatic = .seq (.lit ['s', 't', 'a', 't', 'i', 'c'])
      (.seq (.cls wsChar) (.seq (.star wsChar) pSerialFromFinal)) from rfl]
    rw [matchPat_keyword_stage _ _ _ hfinal]
    rcases hc2 : chompKeyword ['s', 't', 'a', 't', 'i', 'c'] r1 with _ | r2
    · simp [hc2]
    · simp only [hc2, Option.map_some', Option.getD_some, Option.some_bind]
      rw [show pSerialFromFinal = .seq (.lit ['f', 'i', 'n', 'a', 'l'])
        (.seq (.cls wsChar) (.seq (.star wsChar) pSerialFromLong)) from rfl]
      rw [matchPat_keyword_stage _ _ _ hlong]
      rcases hc3 : chompKeyword ['f', 'i', 'n', 'a', 'l'] r2 with _ | r3
      · simp [hc3]
      · simp only [hc3, Option.map_some', Option.getD_some, Option.some_bind]
        rw [show pSerialFromLong = .seq (.lit ['l', 'o', 'n', 'g'])
          (.seq (.cls wsChar) (.seq (.star wsChar) litSerialVersionUID))
          from rfl]
        rw [matchPat_keyword_stage _ _ _ hlast]
        rcases hc4 : chompKeyword ['l', 'o', 'n', 'g'] r3 with _ | r4
        · simp [hc4]
        · simp [hc4, litSerialVersionUID, matchPat]

/-- The classifier refuses a line exactly when some exclusion rule (in its
direct description) matches it. -/
theorem is_effective_line_eq_not_excluded (l : List Char) :
    is_effective_line l = !(matchesExclusion l) := by
  unfold is_effective_line EXCLUDE_PATTERNS matchesExclusion
  simp only [List.any_cons, List.any_nil, reMatch_pBlank, reMatch_pLineComment,
    reMatch_pBlockOpen, reMatch_pBlockMid, reMatch_pBlockClose, reMatch_pImport,
    reMatch_pPackage, reMatch_pAnn, reMatch_pAnnArgs, reMatch_pCloseBrace,
    reMatch_pOpenBrace, reMatch_pCloseParen, reMatch_pSerial, Bool.or_false,
    Bool.or_assoc]

/-- C2: `is_effective_line` returns false iff the line matches one of the
fixed exclusion patterns anchored at line start (blank, single-line comment
opener, block-comment open/continuation/close, import/package statement,
whole-line annotation with or without arguments, lone brace, lone closing
parenthesis with optional semicolon, serialVersionUID declaration); in
particular every whitespace-only line is non-effective and every line
matching no pattern is effective. -/
theorem c2_classifier (l : List Char) :
    (is_effective_line l = false ↔ matchesExclusion l = true) ∧
    (l.all wsChar = true → is_effective_line l = false) ∧
    (matchesExclusion l = false → is_effective_line l = true) := by
  refine ⟨?_, ?_, ?_⟩
  · rw [is_effective_line_eq_not_excluded]
    cases matchesExclusion l <;> simp
  · intro hws
    rw [is_effective_line_eq_not_excluded]
    simp [matchesExclusion, specBlank, hws]
  · intro hex
    rw [is_effective_line_eq_not_excluded, hex]
    rfl

/-- Witness for C2 at concrete lines: a whitespace-only line is
non-effective, a plain code line is effective. -/
theorem c2_classifier_witness :
    is_effective_line ("   ".toList) = false ∧
    is_effective_line ("int x = 1;".toList) = true :=
  ⟨(c2_classifier ("   ".toList)).2.1 (by decide),
   (c2_classifier ("int x = 1;".toList)).2.2 (by decide)⟩

/-! ## Diff aggregation (claims C3, C1) -/

/-- The counting loop of `count_effective_lines` is a `countP`. -/
theorem foldl_count_eq (p : List Char → Bool) (ls : List (List Char)) (n : Nat) :
    ls.foldl (fun acc l => if p l then acc + 1 else acc) n = n + ls.countP p := by
  induction ls generalizing n with
  | nil => simp
  | cons l ls ih =>
    cases hp : p l <;> simp [List.countP_cons, hp, ih] <;> omega

theorem count_effective_lines_eq (content : List Char) :
    count_effective_lines content = (splitOnNl content).countP countedLine := by
  unfold count_effective_lines
  rw [foldl_count_eq]
  simp

/-- A guarded accumulating fold is the sum of the mapped filter. -/
theorem foldl_guard_sum {α : Type} (p : α → Bool) (f : α → Nat) :
    ∀ (ds : List α) (n : Nat),
      ds.foldl (fun acc d => if p d then acc + f d else acc) n =
        n + ((ds.filter p).map f).sum := by
  intro ds
  induction ds with
  | nil => intro n; simp
  | cons d ds ih =>
    intro n
    cases hj : p d <;> simp [List.filter_cons, hj, ih] <;> omega

/-- The per-file loop of `analyze_commit_diff` computes the spec-side sum
over the `.java` entries. -/
theorem analyze_ok_eq (ds : List FileDiff) :
    analyze_commit_diff (.ok ds) = effectiveAdditionsSpec ds := by
  simp only [analyze_commit_diff, effectiveAdditionsSpec]
  rw [foldl_guard_sum isJavaPath
    (fun d => count_effective_lines (d.diff.getD [])) ds 0]
  simp [count_effective_lines_eq]

/-- C3: the per-commit effective-additions count equals the sum, over the
files whose new path ends with ".java", of the number of diff lines that
start with "+" (but not "+++") and whose remainder is classified effective;
in particular a diff with no ".java" file yields exactly 0. -/
theorem c3_diff_aggregator (ds : List FileDiff) :
    analyze_commit_diff (.ok ds) = effectiveAdditionsSpec ds ∧
    ((∀ d ∈ ds, isJavaPath d = false) → analyze_commit_diff (.ok ds) = 0) := by
  refine ⟨analyze_ok_eq ds, fun h => ?_⟩
  rw [analyze_ok_eq]
  unfold effectiveAdditionsSpec
  have hnil : ds.filter isJavaPath = [] := by
    rw [List.filter_eq_nil_iff]
    intro a ha
    simp [h a ha]
  rw [hnil]
  rfl

/-- Witness for C3 at a one-file non-Java diff. -/
theorem c3_diff_aggregator_witness :
    analyze_commit_diff (.ok diffsNoJava) = effectiveAdditionsSpec diffsNoJava ∧
    analyze_commit_diff (.ok diffsNoJava) = 0 :=
  ⟨(c3_diff_aggregator diffsNoJava).1,
   (c3_diff_aggregator diffsNoJava).2 (by decide)⟩

/-! ## Ratio accessor (claim C10) -/

/-- C10: for an aggregate with zero raw additions the ratio accessor
returns exactly 0 instead of dividing by zero. -/
theorem c10_zero_ratio (d : DeveloperStats) (h : d.total_additions = 0) :
    effective_ratio d = 0 := by
  unfold effective_ratio
  rw [if_pos h]

/-- Witness for C10. -/
theorem c10_zero_ratio_witness : effective_ratio devZeroAdditions = 0 :=
  c10_zero_ratio devZeroAdditions rfl

/-! ## Standards evaluation (claim C4) -/

/-- C4: the evaluation passes with no issues at (effective 80, 2 commits,
total 100); it fails with exactly the three issues (line count, commit
count, ratio - the latter enforced since total > 50) at (effective 50,
1 commit, total 200); and in general the pass flag is true iff the issue
list is empty. -/
theorem c4_standards :
    (meets_standard devPassing).1 = true ∧ (meets_standard devPassing).2 = [] ∧
    (meets_standard devFailing).1 = false ∧
    (meets_standard devFailing).2 =
      [Issue.lowEffectiveLines, Issue.lowCommitCount, Issue.lowRatio] ∧
    (∀ d, ((meets_standard d).1 = true ↔ (meets_standard d).2 = [])) := by
  have hA : meets_standard devPassing = (true, []) := by
    simp only [meets_standard, SENIOR_ENGINEER_STANDARDS, commit_count,
      effective_ratio, devPassing]
    norm_num
  have hB : meets_standard devFailing =
      (false, [Issue.lowEffectiveLines, Issue.lowCommitCount, Issue.lowRatio]) := by
    simp only [meets_standard, SENIOR_ENGINEER_STANDARDS, commit_count,
      effective_ratio, devFailing, csDummy]
    norm_num
  refine ⟨by rw [hA], by rw [hA], by rw [hB], by rw [hB], fun d => ?_⟩
  simp [meets_standard]

/-! ## Pagination (claim C8) -/

/-- C8: successive pages of size 100 are requested until a short or empty
page; pages of 100, 100 and 37 items give the 237-item concatenation after
exactly 3 requests. -/
theorem c8_pagination {α : Type} (a b c : List α)
    (ha : a.length = 100) (hb : b.length = 100) (hc : c.length = 37) :
    getAll [a, b, c] = (a ++ b ++ c, 3) ∧ (a ++ b ++ c).length = 237 := by
  have hae : a.isEmpty = false := by cases a <;> simp_all
  have hbe : b.isEmpty = false := by cases b <;> simp_all
  have hce : c.isEmpty = false := by cases c <;> simp_all
  constructor
  · simp [getAll, PER_PAGE, hae, hbe, hce, ha, hb, hc, List.append_assoc]
  · simp [ha, hb, hc]

/-- Witness for C8 on concrete pages. -/
theorem c8_pagination_witness :
    getAll [List.range 100, List.range 100, List.range 37] =
      (List.range 100 ++ List.range 100 ++ List.range 37, 3) ∧
    (List.range 100 ++ List.range 100 ++ List.range 37).length = 237 :=
  c8_pagination _ _ _ (by simp) (by simp) (by simp)

/-! ## Per-commit error isolation (claim C5) -/

/-- A commit whose diff fetch raised mutates the aggregate exactly as the
same commit with an empty diff response. -/
theorem applyCommit_error (pname : String) (c : Commit) (e : String)
    (h : c.diff = .error e) :
    applyCommit pname c = applyCommit pname { c with diff := .ok [] } := by
  funext d
  unfold applyCommit
  simp [h, analyze_commit_diff]

theorem processCommit_error (pname : String)
    (devs : List (String × DeveloperStats)) (c : Commit) (e : String)
    (h : c.diff = .error e) :
    processCommit pname devs c =
      processCommit pname devs { c with diff := .ok [] } := by
  unfold processCommit
  rw [applyCommit_error pname c e h]

/-- C5: a failed diff fetch for one commit is caught: the commit
contributes 0 effective additions and the whole collection over any
surrounding projects and commits equals the collection in which that
commit's diff response is empty — every other commit is processed
unchanged. -/
theorem c5_error_isolation (ps1 ps2 : List Project) (pid : Nat)
    (pname : String) (cs1 cs2 : List Commit) (c : Commit) (e : String)
    (h : c.diff = .error e) :
    analyze_commit_diff c.diff = 0 ∧
    collect_stats
        (ps1 ++ { id := pid, name := pname, commits := cs1 ++ c :: cs2 } :: ps2) =
      collect_stats
        (ps1 ++ { id := pid, name := pname,
                  commits := cs1 ++ { c with diff := .ok [] } :: cs2 } :: ps2) := by
  refine ⟨by rw [h]; rfl, ?_⟩
  unfold collect_stats
  have hstate :
      processProject (ps1.foldl processProject [])
        { id := pid, name := pname, commits := cs1 ++ c :: cs2 } =
      processProject (ps1.foldl processProject [])
        { id := pid, name := pname,
          commits := cs1 ++ { c with diff := .ok [] } :: cs2 } := by
    show (cs1 ++ c :: cs2).foldl (processCommit pname)
        (ps1.foldl processProject []) =
      (cs1 ++ { c with diff := .ok [] } :: cs2).foldl (processCommit pname)
        (ps1.foldl processProject [])
    rw [List.foldl_append, List.foldl_append, List.foldl_cons, List.foldl_cons,
      processCommit_error pname _ c e h]
  rw [List.foldl_append, List.foldl_append, List.foldl_cons, List.foldl_cons,
    hstate]

/-- Witness for C5 on a one-project, one-commit run whose diff fetch
raised. -/
theorem c5_error_isolation_witness :
    analyze_commit_diff cDiffError.diff = 0 ∧
    collect_stats [{ id := 0, name := "proj", commits := [cDiffError] }] =
      collect_stats
        [{ id := 0, name := "proj",
           commits := [{ cDiffError with diff := .ok [] }] }] :=
  c5_error_isolation [] [] 0 "proj" [] [] cDiffError "boom" rfl

/-! ## First-seen display name (claim C9) -/

theorem lookupDev_cons (p : String × DeveloperStats)
    (devs : List (String × DeveloperStats)) (em : String) :
    lookupDev (p :: devs) em =
      if p.1 = em then some p.2 else lookupDev devs em := by
  unfold lookupDev
  by_cases hq : p.1 = em
  · rw [List.find?_cons_of_pos _ (by simp [hq])]
    simp [hq]
  · rw [List.find?_cons_of_neg _ (by simp [hq])]
    simp [hq]

theorem lookupDev_updateDev (devs : List (String × DeveloperStats))
    (email : String) (f : DeveloperStats → DeveloperStats) (em : String) :
    lookupDev (updateDev devs email f) em =
      if em = email then (lookupDev devs em).map f else lookupDev devs em := by
  induction devs with
  | nil => by_cases h : em = email <;> simp [lookupDev, updateDev, h]
  | cons p devs ih =>
    have hupd : updateDev (p :: devs) email f =
        (if p.1 == email then (p.1, f p.2) else p) :: updateDev devs email f :=
      rfl
    rw [hupd]
    simp only [lookupDev_cons]
    by_cases hpe : p.1 = email
    · by_cases hem : p.1 = em
      · have h1 : em = email := hem.symm.trans hpe
        simp [hpe, hem, h1]
      · have h1 : ¬(em = email) := fun h2 => hem (hpe.trans h2.symm)
        have h2 : ¬(email = em) := hpe ▸ hem
        simp [hpe, hem, h1, h2, ih]
    · by_cases hem : p.1 = em
      · have h1 : ¬(em = email) := fun h2 => hpe (hem.trans h2)
        simp [hpe, hem, h1]
      · simp [hpe, hem, ih]
  
theorem lookupDev_append_one (devs : List (String × DeveloperStats))
    (e : String) (d : DeveloperStats) (em : String) :
    lookupDev (devs ++ [(e, d)]) em =
      (lookupDev devs em).or (if em = e then some d else none) := by
  unfold lookupDev
  rw [List.find?_append]
  by_cases h : em = e
  · subst h
    cases List.find? (fun p => p.1 == em) devs <;> simp
  · have h2 : ¬(e = em) := fun h3 => h h3.symm
    cases List.find? (fun p => p.1 == em) devs <;> simp [h, h2]

/-- Processing one commit preserves the "name = first author name seen"
correspondence. -/
theorem lookup_name_processCommit (pname : String)
    (devs : List (String × DeveloperStats)) (c : Commit)
    (processed : List Commit) (em : String)
    (h : (lookupDev devs em).map (fun d => d.name) =
      firstAuthorName processed em) :
    (lookupDev (processCommit pname devs c) em).map (fun d => d.name) =
      firstAuthorName (processed ++ [c]) em := by
  have hfa : firstAuthorName (processed ++ [c]) em =
      (firstAuthorName processed em).or (firstAuthorName [c] em) := by
    unfold firstAuthorName
    rw [List.find?_append]
    cases List.find? (fun c2 => c2.author_email.getD "unknown" == em)
      processed <;> simp
  rw [hfa]
  simp only [processCommit]
  by_cases hnew : (lookupDev devs (c.author_email.getD "unknown")).isNone
  · rw [if_pos hnew]
    rw [lookupDev_updateDev, lookupDev_append_one]
    by_cases hem : em = c.author_email.getD "unknown"
    · have hnone : lookupDev devs em = none := by
        rw [hem]; exact Option.isNone_iff_eq_none.1 hnew
      have hpnone : firstAuthorName processed em = none := by
        rw [← h, hnone]; rfl
      have hfind : List.find?
          (fun c2 => c2.author_email.getD "unknown" ==
            c.author_email.getD "unknown") processed = none := by
        have h3 := hpnone
        unfold firstAuthorName at h3
        rw [hem] at h3
        exact Option.map_eq_none'.1 h3
      have hnone2 : lookupDev devs (c.author_email.getD "unknown") = none :=
        hem ▸ hnone
      simp [hem, hnone2, hfind, firstAuthorName, applyCommit, initDev]
    · have hne : ¬(c.author_email.getD "unknown" == em) = true := by
        simp [beq_iff_eq]
        exact fun h2 => hem h2.symm
      simp [hem, h, firstAuthorName, List.find?, hne]
  · rw [if_neg hnew]
    rw [lookupDev_updateDev]
    by_cases hem : em = c.author_email.getD "unknown"
    · have hsome : ∃ d0, lookupDev devs em = some d0 := by
        rw [hem]
        rcases ho : lookupDev devs (c.author_email.getD "unknown") with _ | d0
        · rw [ho] at hnew; simp at hnew
        · exact ⟨d0, rfl⟩
      rcases hsome with ⟨d0, hd0⟩
      have hpfound : firstAuthorName processed em = some d0.name := by
        rw [← h, hd0]; rfl
      have hd0b : lookupDev devs (c.author_email.getD "unknown") = some d0 :=
        hem ▸ hd0
      have hpfb : firstAuthorName processed (c.author_email.getD "unknown") =
          some d0.name := hem ▸ hpfound
      simp [hem, hd0b, hpfb, applyCommit]
    · have hne : ¬(c.author_email.getD "unknown" == em) = true := by
        simp [beq_iff_eq]
        exact fun h2 => hem h2.symm
      simp [hem, h, firstAuthorName, List.find?, hne]

theorem lookup_name_commits (pname : String) (cs : List Commit) :
    ∀ (devs : List (String × DeveloperStats)) (processed : List Commit)
      (em : String),
      (lookupDev devs em).map (fun d => d.name) =
        firstAuthorName processed em →
      (lookupDev (cs.foldl (processCommit pname) devs) em).map
        (fun d => d.name) = firstAuthorName (processed ++ cs) em := by
  induction cs with
  | nil => intro devs processed em h; simpa using h
  | cons c cs ih =>
    intro devs processed em h
    rw [List.foldl_cons]
    have h2 := ih (processCommit pname devs c) (processed ++ [c]) em
      (lookup_name_processCommit pname devs c processed em h)
    simpa [List.append_assoc] using h2

theorem lookup_name_projects (ps : List Project) :
    ∀ (devs : List (String × DeveloperStats)) (processed : List Commit)
      (em : String),
      (lookupDev devs em).map (fun d => d.name) =
        firstAuthorName processed em →
      (lookupDev (ps.foldl processProject devs) em).map (fun d => d.name) =
        firstAuthorName (processed ++ flatCommits ps) em := by
  induction ps with
  | nil => intro devs processed em h; simpa [flatCommits] using h
  | cons p ps ih =>
    intro devs processed em h
    rw [List.foldl_cons]
    have hstep := lookup_name_commits p.name p.commits devs processed em h
    have h2 := ih (processProject devs p) (processed ++ p.commits) em hstep
    simpa [flatCommits, List.append_assoc] using h2

/-- C9 (amended): after collection, a developer aggregate carries the
display name of the FIRST commit seen for its email — the name is set at
first sighting and never updated. -/
theorem c9_first_name (projects : List Project) (email : String) :
    (lookupDev (collect_stats projects) email).map (fun d => d.name) =
      firstAuthorName (flatCommits projects) email := by
  have h := lookup_name_projects projects [] [] email
    (by simp [lookupDev, firstAuthorName])
  simpa using h

/-- Counterexample to C9 as stated: with commits named "Alice" then "Bob"
for the same email, the aggregate ends with "Alice" (first seen), not the
last-seen "Bob". -/
theorem c9_last_name_cex :
    (lookupDev (collect_stats projectsTwoNames) "a@x.y").map
      (fun d => d.name) = some "Alice" ∧
    ((flatCommits projectsTwoNames).getLast?.map
      (fun c => c.author_name.getD "Unknown")) = some "Bob" ∧
    some "Alice" ≠ some "Bob" := by
  refine ⟨by decide, by decide, by decide⟩

/-! ## Effective-versus-total invariant (claim C1) -/

/-- A counted line is in particular an addition line. -/
theorem countedLine_isAddLine {l : List Char} (h : countedLine l = true) :
    isAddLine l = true := by
  unfold countedLine at h
  unfold isAddLine
  simp only [Bool.and_eq_true] at h ⊢
  exact h.1

/-- The classifier counts a subset of the addition lines of the diff. -/
theorem effectiveSpec_le_added (ds : List FileDiff) :
    effectiveAdditionsSpec ds ≤ addedLineCount ds := by
  unfold effectiveAdditionsSpec addedLineCount
  induction ds with
  | nil => simp
  | cons d ds ih =>
    rw [List.filter_cons]
    by_cases hj : isJavaPath d = true
    · simp only [hj, if_pos, List.map_cons, List.sum_cons]
      exact Nat.add_le_add
        (List.countP_mono_left (fun l _ hl => countedLine_isAddLine hl)) ih
    · simp only [hj, if_neg, Bool.false_eq_true, List.map_cons, List.sum_cons]
      exact le_trans ih (Nat.le_add_left _ _)

/-- When the reported additions bound the diff's addition lines, (caught)
per-commit analysis never exceeds the reported additions. -/
theorem analyze_le_additions (c : Commit) (h : addBound c = true) :
    analyze_commit_diff c.diff ≤ c.stats_additions.getD 0 := by
  rcases hd : c.diff with e | ds
  · simp [analyze_commit_diff]
  · rw [analyze_ok_eq]
    have h2 : addedLineCount ds ≤ c.stats_additions.getD 0 := by
      have h3 := h
      unfold addBound at h3
      rw [hd] at h3
      simpa using h3
    exact le_trans (effectiveSpec_le_added ds) h2

theorem applyCommit_invariant (pname : String) (c : Commit)
    (d : DeveloperStats) (hd : d.effective_additions ≤ d.total_additions)
    (hc : addBound c = true) :
    (applyCommit pname c d).effective_additions ≤
      (applyCommit pname c d).total_additions := by
  show d.effective_additions + analyze_commit_diff c.diff ≤
    d.total_additions + c.stats_additions.getD 0
  exact Nat.add_le_add hd (analyze_le_additions c hc)

theorem processCommit_invariant (pname : String)
    (devs : List (String × DeveloperStats)) (c : Commit)
    (hdevs : ∀ pr ∈ devs, pr.2.effective_additions ≤ pr.2.total_additions)
    (hc : addBound c = true) :
    ∀ pr ∈ processCommit pname devs c,
      pr.2.effective_additions ≤ pr.2.total_additions := by
  intro pr hpr
  simp only [processCommit, updateDev] at hpr
  rw [List.mem_map] at hpr
  obtain ⟨p, hp, hpeq⟩ := hpr
  have hpinv : p.2.effective_additions ≤ p.2.total_additions := by
    by_cases hnew : (lookupDev devs (c.author_email.getD "unknown")).isNone = true
    · rw [if_pos hnew] at hp
      rcases List.mem_append.1 hp with hp1 | hp2
      · exact hdevs p hp1
      · have hp3 : p = (c.author_email.getD "unknown",
            initDev (c.author_name.getD "Unknown")
              (c.author_email.getD "unknown")) := by simpa using hp2
        rw [hp3]
        simp [initDev]
    · rw [if_neg hnew] at hp
      exact hdevs p hp
  by_cases hm : (p.1 == c.author_email.getD "unknown") = true
  · rw [if_pos hm] at hpeq
    rw [← hpeq]
    exact applyCommit_invariant pname c p.2 hpinv hc
  · rw [if_neg hm] at hpeq
    rw [← hpeq]
    exact hpinv

theorem commits_invariant (pname : String) :
    ∀ (cs : List Commit), (∀ c ∈ cs, addBound c = true) →
    ∀ (devs : List (String × DeveloperStats)),
      (∀ pr ∈ devs, pr.2.effective_additions ≤ pr.2.total_additions) →
      ∀ pr ∈ cs.foldl (processCommit pname) devs,
        pr.2.effective_additions ≤ pr.2.total_additions := by
  intro cs
  induction cs with
  | nil => intro _ devs hdevs; simpa using hdevs
  | cons c cs ih =>
    intro hcs devs hdevs
    rw [List.foldl_cons]
    exact ih (fun c2 hc2 => hcs c2 (List.mem_cons_of_mem _ hc2)) _
      (processCommit_invariant pname devs c hdevs
        (hcs c (List.mem_cons_self _ _)))

theorem projects_invariant :
    ∀ (ps : List Project), (∀ p ∈ ps, ∀ c ∈ p.commits, addBound c = true) →
    ∀ (devs : List (String × DeveloperStats)),
      (∀ pr ∈ devs, pr.2.effective_additions ≤ pr.2.total_additions) →
      ∀ pr ∈ ps.foldl processProject devs,
        pr.2.effective_additions ≤ pr.2.total_additions := by
  intro ps
  induction ps with
  | nil => intro _ devs hdevs; simpa using hdevs
  | cons p ps ih =>
    intro hps devs hdevs
    rw [List.foldl_cons]
    exact ih (fun p2 hp2 => hps p2 (List.mem_cons_of_mem _ hp2)) _
      (commits_invariant p.name p.commits
        (hps p (List.mem_cons_self _ _)) devs hdevs)

/-- C1 (amended): provided each commit's API-reported additions are at
least the number of addition lines of its retrieved diff (which the GitLab
statistics guarantee), every developer aggregate built by `collect_stats`
satisfies `effective_additions ≤ total_additions` (both are `Nat`, so
`0 ≤ effective_additions` holds by construction). -/
theorem c1_invariant (projects : List Project)
    (H : ∀ p ∈ projects, ∀ c ∈ p.commits, addBound c = true) :
    ∀ pr ∈ collect_stats projects,
      pr.2.effective_additions ≤ pr.2.total_additions := by
  unfold collect_stats
  exact projects_invariant projects H [] (by simp)

/-- Counterexample to C1 as stated: nothing ties the two data sources
together, so a commit whose API statistics report 0 additions while its
retrieved diff carries one effective added Java line produces an aggregate
with `effective_additions = 1 > 0 = total_additions`. -/
theorem c1_invariant_cex :
    ((collect_stats projectsInconsistent).all
      (fun pr => decide (pr.2.effective_additions ≤ pr.2.total_additions)))
      = false ∧
    (lookupDev (collect_stats projectsInconsistent) "dev@example.com").map
      (fun d => (d.effective_additions, d.total_additions)) = some (1, 0) := by
  refine ⟨by decide, by decide⟩

/-- Witness for the amended C1 on a consistent one-commit run. -/
theorem c1_invariant_witness :
    ((collect_stats projectsConsistent).all
      (fun pr => decide (pr.2.effective_additions ≤ pr.2.total_additions)))
      = true := by
  have h := c1_invariant projectsConsistent (by decide)
  rw [List.all_eq_true]
  intro pr hpr
  simpa using h pr hpr

/-! ## Notification dispatch (claim C6) -/

/-- When every post of the part loop receives an HTTP response (of any
status), the loop never raises and logs one line per part. -/
theorem sendTelegramLoop_responses (toc : Nat → Nat × String) (total : Nat) :
    ∀ (parts : List (List Char)) (i : Nat),
      sendTelegramLoop (fun j => .response (toc j).1 (toc j).2) total parts i =
        .ok (tgLogsExpected toc total parts i) := by
  intro parts
  induction parts with
  | nil => intro i; rfl
  | cons part rest ih =>
    intro i
    simp [sendTelegramLoop, tgLogsExpected, ih, Except.map]

/-- C6 (amended): when every configured channel's post returns an HTTP
response — success or not — every channel is attempted, each logs its own
status line, nothing is raised, and `main` exits 0; a raised transport
exception, by contrast, aborts the remaining sends (see the
counterexample). -/
theorem c6_notification_isolation (cfg : NotifyConfig) (report : List Char)
    (wc dc : Nat) (wb db : String) (toc : Nat → Nat × String) :
    mainExitCode cfg (.response wc wb) (.response dc db)
      (fun i => .response (toc i).1 (toc i).2) report = 0 ∧
    notifyPhase cfg (.response wc wb) (.response dc db)
      (fun i => .response (toc i).1 (toc i).2) report =
      .ok ((if cfg.wecom_webhook.isSome then
              ["企业微信发送结果: " ++ toString wc] else []) ++
           (if cfg.dingtalk_webhook.isSome then
              ["钉钉发送结果: " ++ toString dc] else []) ++
           (if cfg.telegram_token.isSome && cfg.telegram_chat_id.isSome then
              tgLogsExpected toc (telegramParts report).length
                (telegramParts report) 0
            else [])) := by
  have hn : notifyPhase cfg (.response wc wb) (.response dc db)
      (fun i => .response (toc i).1 (toc i).2) report =
      .ok ((if cfg.wecom_webhook.isSome then
              ["企业微信发送结果: " ++ toString wc] else []) ++
           (if cfg.dingtalk_webhook.isSome then
              ["钉钉发送结果: " ++ toString dc] else []) ++
           (if cfg.telegram_token.isSome && cfg.telegram_chat_id.isSome then
              tgLogsExpected toc (telegramParts report).length
                (telegramParts report) 0
            else [])) := by
    obtain ⟨w, d, tt, tc⟩ := cfg
    cases w <;> cases d <;> cases tt <;> cases tc <;>
      simp [notifyPhase, send_wecom, send_dingtalk, send_telegram,
        sendTelegramLoop_responses, Bind.bind, Except.bind]
  exact ⟨by unfold mainExitCode; rw [hn], hn⟩

/-- Counterexample to C6 as stated: a raised transport exception in the
first channel is NOT caught — it aborts the notification phase (the other
channels are never attempted) and `main` exits 1 instead of 0. -/
theorem c6_notification_cex :
    mainExitCode cfgAllChannels (.exn "timeout") (.response 200 "ok")
      (fun _ => .response 200 "ok") reportSmall = 1 ∧
    notifyPhase cfgAllChannels (.exn "timeout") (.response 200 "ok")
      (fun _ => .response 200 "ok") reportSmall = .error "timeout" :=
  ⟨rfl, rfl⟩

/-! ## Telegram message splitting (claim C7) -/

theorem splitOnNl_ne_nil (s : List Char) : splitOnNl s ≠ [] := by
  induction s with
  | nil => simp [splitOnNl]
  | cons c cs ih =>
    rw [splitOnNl]
    by_cases hc : c = '\n'
    · simp [hc]
    · rcases h : splitOnNl cs with _ | ⟨l, ls⟩
      · exact absurd h ih
      · simp [hc, h]

theorem joinNl_splitOnNl (s : List Char) : joinNl (splitOnNl s) = s := by
  induction s with
  | nil => rfl
  | cons c cs ih =>
    rw [splitOnNl]
    by_cases hc : c = '\n'
    · rw [if_pos hc]
      rcases h : splitOnNl cs with _ | ⟨l, ls⟩
      · exact absurd h (splitOnNl_ne_nil cs)
      · rw [h] at ih
        subst hc
        simp [joinNl, ih]
    · rw [if_neg hc]
      rcases h : splitOnNl cs with _ | ⟨l, ls⟩
      · exact absurd h (splitOnNl_ne_nil cs)
      · rw [h] at ih
        rcases ls with _ | ⟨m, ms⟩
        · simp [joinNl] at ih ⊢
          rw [ih]
        · simp only [joinNl, List.cons_append] at ih ⊢
          rw [← ih]

/-- Joining a concatenation of two non-empty line blocks inserts exactly
one newline at the seam. -/
theorem joinNl_append : ∀ (b t : List (List Char)), b ≠ [] → t ≠ [] →
    joinNl (b ++ t) = joinNl b ++ '\n' :: joinNl t := by
  intro b
  induction b with
  | nil => intro t h _; exact absurd rfl h
  | cons x xs ih =>
    intro t _ htne
    rcases xs with _ | ⟨y, ys⟩
    · rcases t with _ | ⟨m, ms⟩
      · exact absurd rfl htne
      · simp [joinNl]
    · have h2 := ih t (by simp) htne
      rcases t with _ | ⟨m, ms⟩
      · exact absurd rfl htne
      · simp only [List.cons_append] at h2 ⊢
        simp only [joinNl]
        rw [h2]
        simp [List.append_assoc]

theorem joinNl_ne_nil (x : List Char) (xs : List (List Char)) (hx : x ≠ []) :
    joinNl (x :: xs) ≠ [] := by
  rcases xs with _ | ⟨y, ys⟩
  · simpa [joinNl] using hx
  · simp [joinNl]

/-- Joining the per-block joins of a partition equals joining the
partition's concatenation. -/
theorem joinNl_flatten : ∀ (blocks : List (List (List Char))),
    (∀ b ∈ blocks, b ≠ []) →
    joinNl (blocks.map joinNl) = joinNl blocks.flatten := by
  intro blocks
  induction blocks with
  | nil => intro _; rfl
  | cons b bs ih =>
    intro hb
    rcases bs with _ | ⟨b2, bs2⟩
    · simp [joinNl]
    · have hb1 : b ≠ [] := hb b (List.mem_cons_self _ _)
      have hb2 : b2 ≠ [] := hb b2 (List.mem_cons_of_mem _ (List.mem_cons_self _ _))
      have hflatne : (List.flatten (b2 :: bs2)) ≠ [] := by
        rw [List.flatten_cons]
        simp [hb2]
      have h1 : joinNl (List.map joinNl (b :: b2 :: bs2)) =
          joinNl b ++ '\n' :: joinNl (List.map joinNl (b2 :: bs2)) := by
        simp [joinNl]
      rw [h1, ih (fun x hx => hb x (List.mem_cons_of_mem _ hx))]
      rw [show (b :: b2 :: bs2).flatten = b ++ (b2 :: bs2).flatten from rfl]
      rw [joinNl_append b ((b2 :: bs2).flatten) hb1 hflatne]

/-- One loop iteration preserves the accumulation invariant, provided the
incoming line is non-empty and shorter than the cap. -/
theorem tgStep_inv (processed : List (List Char))
    (st : List (List Char) × List Char) (line : List Char)
    (h : TgInv processed st) (hl1 : line ≠ [])
    (hl2 : line.length < TELEGRAM_MAX_LEN) :
    TgInv (processed ++ [line]) (tgStep st line) := by
  obtain ⟨blocks, cur, hparts, hjoin, hblocks, hcur, hlen, hcurne, hpne⟩ := h
  unfold tgStep
  by_cases hcond : st.2.length + line.length + 1 > TELEGRAM_MAX_LEN
  · rw [if_pos hcond]
    have hcurnil : cur ≠ [] := by
      intro hc
      subst hc
      simp [joinNl] at hcur
      rw [hcur] at hcond
      simp at hcond
      omega
    refine ⟨blocks ++ [cur], [line], ?_, ?_, ?_, ?_, ?_, ?_, ?_⟩
    · simp [hparts, hcur]
    · rw [List.flatten_append,
        show List.flatten [cur] = cur by simp, hjoin]
    · intro b hb
      rcases List.mem_append.1 hb with h1 | h2
      · exact hblocks b h1
      · simp only [List.mem_singleton] at h2
        subst h2
        exact ⟨hcurnil, hcur ▸ hlen⟩
    · simp [joinNl]
    · simpa [joinNl] using le_of_lt hl2
    · intro x hx
      simp only [List.mem_singleton] at hx
      subst hx
      exact hl1
    · intro _; simp
  · rw [if_neg hcond]
    by_cases hemp : st.2.isEmpty = true
    · rw [if_pos hemp]
      have hcnil : cur = [] := by
        rcases hcurc : cur with _ | ⟨x, xs⟩
        · rfl
        · exfalso
          have hxne : x ≠ [] := hcurne x (by rw [hcurc]; exact List.mem_cons_self _ _)
          have hne2 : joinNl (x :: xs) ≠ [] := joinNl_ne_nil x xs hxne
          rw [← hcurc, ← hcur] at hne2
          exact hne2 (List.isEmpty_iff.1 hemp)
      subst hcnil
      have hjoin2 : blocks.flatten = processed := by simpa using hjoin
      refine ⟨blocks, [line], hparts, by rw [hjoin2], hblocks, by simp [joinNl],
        by simpa [joinNl] using le_of_lt hl2, ?_, by intro _; simp⟩
      intro x hx
      simp only [List.mem_singleton] at hx
      subst hx
      exact hl1
    · rw [if_neg hemp]
      have hcne : cur ≠ [] := by
        intro hc
        subst hc
        simp [joinNl] at hcur
        rw [hcur] at hemp
        simp at hemp
      refine ⟨blocks, cur ++ [line], hparts, ?_, hblocks, ?_, ?_, ?_, ?_⟩
      · rw [← List.append_assoc, hjoin]
      · rw [joinNl_append cur [line] hcne (by simp)]
        simp [hcur, joinNl]
      · simp only [List.length_append, List.length_cons]
        simp only [gt_iff_lt, not_lt] at hcond
        omega
      · intro x hx
        rcases List.mem_append.1 hx with h1 | h2
        · exact hcurne x h1
        · simp only [List.mem_singleton] at h2
          subst h2
          exact hl1
      · intro _
        simp [hcne]
  
theorem tgFold_inv : ∀ (ls : List (List Char)) (processed : List (List Char))
    (st : List (List Char) × List Char), TgInv processed st →
    (∀ l ∈ ls, l ≠ [] ∧ l.length < TELEGRAM_MAX_LEN) →
    TgInv (processed ++ ls) (ls.foldl tgStep st) := by
  intro ls
  induction ls with
  | nil => intro processed st h _; simpa using h
  | cons l ls ih =>
    intro processed st h hls
    rw [List.foldl_cons]
    have h2 := tgStep_inv processed st l h
      (hls l (List.mem_cons_self _ _)).1 (hls l (List.mem_cons_self _ _)).2
    have h3 := ih (processed ++ [l]) (tgStep st l) h2
      (fun x hx => hls x (List.mem_cons_of_mem _ hx))
    simpa [List.append_assoc] using h3

/-- C7 (amended): for content longer than the 4000-character cap all of
whose lines are non-empty and shorter than the cap, the splitting produces
at least two parts, each within the cap, each part the newline-join of a
consecutive non-empty block of the original lines, and joining the parts
with newlines reconstructs the content exactly.  (A content with an empty
line can lose that line — see the counterexample.) -/
theorem c7_split_reconstruct (content : List Char)
    (hlong : TELEGRAM_MAX_LEN < content.length)
    (hlines : ∀ l ∈ splitOnNl content,
      l ≠ [] ∧ l.length < TELEGRAM_MAX_LEN) :
    2 ≤ (telegramParts content).length ∧
    (∀ p ∈ telegramParts content, p.length ≤ TELEGRAM_MAX_LEN) ∧
    joinNl (telegramParts content) = content ∧
    (∃ blocks : List (List (List Char)),
      blocks.flatten = splitOnNl content ∧ (∀ b ∈ blocks, b ≠ []) ∧
      telegramParts content = blocks.map joinNl) := by
  have hinv0 : TgInv [] ([], []) := by
    refine ⟨[], [], by simp, by simp, by simp, rfl, ?_, by simp, ?_⟩
    · simp [TELEGRAM_MAX_LEN]
    · intro h; exact absurd rfl h
  have hinv := tgFold_inv (splitOnNl content) [] ([], []) hinv0 hlines
  rw [List.nil_append] at hinv
  obtain ⟨blocks, cur, hparts, hjoin, hblocks, hcur, hlen, hcurne, hpne⟩ := hinv
  have hsne : splitOnNl content ≠ [] := splitOnNl_ne_nil content
  have hcurnil : cur ≠ [] := hpne hsne
  have hst2ne : ((splitOnNl content).foldl tgStep ([], [])).2 ≠ [] := by
    rw [hcur]
    rcases hcurc : cur with _ | ⟨x, xs⟩
    · exact absurd hcurc hcurnil
    · exact joinNl_ne_nil x xs
        (hcurne x (by rw [hcurc]; exact List.mem_cons_self _ _))
  have htel : telegramParts content =
      ((splitOnNl content).foldl tgStep ([], [])).1 ++
        [((splitOnNl content).foldl tgStep ([], [])).2] := by
    unfold telegramParts
    rw [if_neg (by omega), if_neg (fun h2 => hst2ne (List.isEmpty_iff.1 h2))]
  have hfinalparts : telegramParts content = (blocks ++ [cur]).map joinNl := by
    rw [htel, hparts, hcur]
    simp
  have hbne : ∀ b ∈ blocks ++ [cur], b ≠ [] := by
    intro b hb
    rcases List.mem_append.1 hb with h1 | h2
    · exact (hblocks b h1).1
    · simp only [List.mem_singleton] at h2
      subst h2
      exact hcurnil
  have hflat : (blocks ++ [cur]).flatten = splitOnNl content := by
    rw [List.flatten_append, show List.flatten [cur] = cur by simp, hjoin]
  have hrecon : joinNl (telegramParts content) = content := by
    rw [hfinalparts, joinNl_flatten _ hbne, hflat, joinNl_splitOnNl]
  have hbound : ∀ p ∈ telegramParts content, p.length ≤ TELEGRAM_MAX_LEN := by
    intro p hp
    rw [hfinalparts] at hp
    rw [List.mem_map] at hp
    obtain ⟨b, hb, hpe⟩ := hp
    rcases List.mem_append.1 hb with h1 | h2
    · rw [← hpe]
      exact (hblocks b h1).2
    · simp only [List.mem_singleton] at h2
      subst h2
      rw [← hpe, ← hcur]
      exact hlen
  refine ⟨?_, hbound, hrecon, blocks ++ [cur], hflat, hbne, hfinalparts⟩
  rcases hp : telegramParts content with _ | ⟨p1, rest⟩
  · rw [hp] at hrecon
    simp only [joinNl] at hrecon
    rw [← hrecon] at hlong
    simp at hlong
  · rcases rest with _ | ⟨p2, ps⟩
    · rw [hp] at hrecon
      simp only [joinNl] at hrecon
      have hb1 : p1.length ≤ TELEGRAM_MAX_LEN :=
        hbound p1 (by rw [hp]; exact List.mem_cons_self _ _)
      rw [hrecon] at hb1
      omega
    · simp

/-- Splitting a string that starts with a newline yields a leading empty
line. -/
theorem splitOnNl_cons_nl (rest : List Char) :
    splitOnNl ('\n' :: rest) = [] :: splitOnNl rest := by
  rw [splitOnNl]
  simp

/-- Splitting a newline-free segment followed by a newline peels off the
segment as one line. -/
theorem splitOnNl_seg : ∀ (l : List Char), (∀ c ∈ l, c ≠ '\n') →
    ∀ rest, splitOnNl (l ++ '\n' :: rest) = l :: splitOnNl rest := by
  intro l
  induction l with
  | nil => intro _ rest; rw [List.nil_append, splitOnNl_cons_nl]
  | cons c cs ih =>
    intro hc rest
    rw [List.cons_append, splitOnNl,
      if_neg (hc c (List.mem_cons_self _ _)),
      ih (fun x hx => hc x (List.mem_cons_of_mem _ hx)) rest]

/-- A newline-free string is a single line. -/
theorem splitOnNl_no_nl (l : List Char) (h : ∀ c ∈ l, c ≠ '\n') :
    splitOnNl l = [l] := by
  induction l with
  | nil => rfl
  | cons c cs ih =>
    rw [splitOnNl, if_neg (h c (List.mem_cons_self _ _)),
      ih (fun x hx => h x (List.mem_cons_of_mem _ hx))]

theorem replicate_a_no_nl (n : Nat) :
    ∀ c ∈ List.replicate n 'a', c ≠ '\n' := by
  intro c hc
  rw [List.eq_of_mem_replicate hc]
  decide

theorem splitOnNl_contentEmptyLine :
    splitOnNl contentEmptyLine =
      [[], List.replicate 2000 'a', List.replicate 2000 'a'] := by
  unfold contentEmptyLine
  rw [splitOnNl_cons_nl, splitOnNl_seg _ (replicate_a_no_nl 2000),
    splitOnNl_no_nl _ (replicate_a_no_nl 2000)]

theorem telegramParts_contentEmptyLine :
    telegramParts contentEmptyLine =
      [List.replicate 2000 'a', List.replicate 2000 'a'] := by
  have hlen : contentEmptyLine.length = 4002 := by
    simp only [contentEmptyLine, List.length_cons, List.length_append,
      List.length_replicate]
  have hstep1 : tgStep ([], []) [] = ([], []) := rfl
  have hstep2 : tgStep ([], []) (List.replicate 2000 'a') =
      ([], List.replicate 2000 'a') := by
    unfold tgStep
    rw [if_neg (by
      simp only [List.length_nil, List.length_replicate, TELEGRAM_MAX_LEN]
      decide)]
    rfl
  have hstep3 : tgStep ([], List.replicate 2000 'a') (List.replicate 2000 'a') =
      ([List.replicate 2000 'a'], List.replicate 2000 'a') := by
    unfold tgStep
    rw [if_pos (by
      simp only [List.length_replicate, TELEGRAM_MAX_LEN]
      decide)]
    rfl
  have hfold : (splitOnNl contentEmptyLine).foldl tgStep ([], []) =
      ([List.replicate 2000 'a'], List.replicate 2000 'a') := by
    rw [splitOnNl_contentEmptyLine]
    rw [List.foldl_cons, hstep1, List.foldl_cons, hstep2, List.foldl_cons,
      hstep3, List.foldl_nil]
  unfold telegramParts
  rw [if_neg (by rw [hlen]; decide), hfold]
  rfl

/-- Counterexample to C7 as stated: content of 4002 characters whose every
line is shorter than the cap, but whose first line is empty.  The
accumulation loop silently merges the empty line away (`current = line`
when `current` is falsy), so joining the produced parts with newlines does
NOT reconstruct the content. -/
theorem c7_split_reconstruct_cex :
    TELEGRAM_MAX_LEN < contentEmptyLine.length ∧
    ((splitOnNl contentEmptyLine).all
      (fun l => decide (l.length < TELEGRAM_MAX_LEN))) = true ∧
    joinNl (telegramParts contentEmptyLine) ≠ contentEmptyLine := by
  refine ⟨?_, ?_, ?_⟩
  · have hlen : contentEmptyLine.length = 4002 := by
      simp only [contentEmptyLine, List.length_cons, List.length_append,
        List.length_replicate]
    rw [hlen]
    decide
  · rw [splitOnNl_contentEmptyLine]
    simp only [List.all_cons, List.all_nil, List.length_replicate,
      List.length_nil, TELEGRAM_MAX_LEN]
    decide
  · rw [telegramParts_contentEmptyLine]
    intro h
    have hhead : (joinNl [List.replicate 2000 'a',
        List.replicate 2000 'a']).head? = some 'a' := by
      rw [show (2000 : Nat) = 1999 + 1 from rfl]
      rw [List.replicate_succ]
      rfl
    have h2 := congrArg List.head? h
    rw [hhead] at h2
    have h3 : contentEmptyLine.head? = some '\n' := rfl
    rw [h3] at h2
    exact absurd (Option.some.inj h2) (by decide)

theorem splitOnNl_contentThreeLines :
    splitOnNl contentThreeLines =
      [List.replicate 1500 'a', List.replicate 1500 'a',
       List.replicate 1500 'a'] := by
  unfold contentThreeLines
  rw [splitOnNl_seg _ (replicate_a_no_nl 1500),
    splitOnNl_seg _ (replicate_a_no_nl 1500),
    splitOnNl_no_nl _ (replicate_a_no_nl 1500)]

/-- Witness for the amended C7 on 4502 characters in three 1500-character
lines. -/
theorem c7_split_reconstruct_witness :
    joinNl (telegramParts contentThreeLines) = contentThreeLines :=
  (c7_split_reconstruct contentThreeLines
    (by
      simp only [contentThreeLines, List.length_cons, List.length_append,
        List.length_replicate, TELEGRAM_MAX_LEN]
      decide)
    (by
      rw [splitOnNl_contentThreeLines]
      intro l hl
      simp only [List.mem_cons, List.not_mem_nil, or_false] at hl
      rcases hl with h | h | h <;> rw [h] <;> refine ⟨?_, ?_⟩ <;>
        first
        | (intro hnil
           have h2 := congrArg List.length hnil
           rw [List.length_replicate] at h2
           exact absurd h2 (by decide))
        | (simp only [List.length_replicate, TELEGRAM_MAX_LEN]
           decide))).2.2.1
